import Mathlib

/-!
Verification of the `graphics_buffer` software rasterizer.

The Rust sources (src/lib.rs, src/glyphs.rs) are shallowly embedded below.
Finite `f32` arithmetic is idealized as exact rational arithmetic (`ℚ`);
the compositing law `layer_color`, whose alpha channel takes a square root,
is additionally stated over `ℝ`, and an executable quantized composite is
proved equal to the real-valued pipeline.  Rust saturating casts
(`as u8`, `as u32`, `as i32`) are modelled explicitly, including their
behavior on NaN and infinities where the barycentric solve can divide by
zero.
-/

namespace GraphicsBuffer

/-- An RGBA color `[f32; 4]` with channels modelled as exact rationals
(index 0 = red, 1 = green, 2 = blue, 3 = alpha). -/
structure Color4 where
  r : ℚ
  g : ℚ
  b : ℚ
  a : ℚ
deriving DecidableEq

/-- A stored pixel: the four `u8` channels of an `image::Rgba<u8>`. -/
structure Pix where
  r : ℕ
  g : ℕ
  b : ℕ
  a : ℕ
deriving DecidableEq

/-- Rust saturating cast `f32 as u8`: truncation toward zero, clamped to
`[0, 255]` (negative values go to 0). -/
def toU8 (q : ℚ) : ℕ :=
  if q ≤ 0 then 0 else min 255 (Int.toNat ⌊q⌋)

/-- `color_f32_rgba` (src/lib.rs:367): each channel is `(channel * 255.0) as u8`. -/
def color_f32_rgba (c : Color4) : Pix :=
  ⟨toU8 (c.r * 255), toU8 (c.g * 255), toU8 (c.b * 255), toU8 (c.a * 255)⟩

/-- `color_rgba_f32` (src/lib.rs:376): each channel is `f32::from(byte) / 255.0`. -/
def color_rgba_f32 (p : Pix) : Color4 :=
  ⟨(p.r : ℚ) / 255, (p.g : ℚ) / 255, (p.b : ℚ) / 255, (p.a : ℚ) / 255⟩

/-- `color_mul` (src/lib.rs:385): channelwise product. -/
def color_mul (a b : Color4) : Color4 :=
  ⟨a.r * b.r, a.g * b.g, a.b * b.b, a.a * b.a⟩

/-- An RGBA color over the reals, used to state `layer_color` exactly (its
alpha channel takes a square root, which leaves `ℚ`). -/
@[ext]
structure ColorR where
  r : ℝ
  g : ℝ
  b : ℝ
  a : ℝ

/-- `layer_color` (src/lib.rs:389): composites `over` atop `under`.
`powf(2.0)` is squaring, `.sqrt()` is the real square root, `.min(1.0)`
clamps the combined alpha. -/
noncomputable def layer_color (over under : ColorR) : ColorR :=
  let over_weight := 1 - (1 - over.a) ^ 2
  let under_weight := 1 - over_weight
  ⟨over_weight * over.r + under_weight * under.r,
   over_weight * over.g + under_weight * under.g,
   over_weight * over.b + under_weight * under.b,
   min (Real.sqrt (over.a ^ 2 + under.a ^ 2)) 1⟩

/-- All four channels lie in `[0, 1]`. -/
def inRange01 (c : ColorR) : Prop :=
  0 ≤ c.r ∧ c.r ≤ 1 ∧ 0 ≤ c.g ∧ c.g ≤ 1 ∧ 0 ≤ c.b ∧ c.b ≤ 1 ∧ 0 ≤ c.a ∧ c.a ≤ 1

/-- Claim C3: for every over color with alpha exactly 1 and every under
color, `layer_color` returns the over color exactly, in all four channels
(opaque overwrite). -/
theorem c3_opaque_overwrite (over under : ColorR) (h : over.a = 1) :
    layer_color over under = over := by
  have h1 : (1 : ℝ) ≤ Real.sqrt (over.a ^ 2 + under.a ^ 2) := by
    rw [h]
    have harg : (1 : ℝ) ≤ 1 ^ 2 + under.a ^ 2 := by nlinarith [sq_nonneg under.a]
    calc (1 : ℝ) = Real.sqrt 1 := Real.sqrt_one.symm
    _ ≤ Real.sqrt (1 ^ 2 + under.a ^ 2) := Real.sqrt_le_sqrt (by nlinarith [sq_nonneg under.a])
  unfold layer_color
  ext <;> dsimp only
  · rw [h]; ring
  · rw [h]; ring
  · rw [h]; ring
  · rw [min_eq_right h1, h]

/-- Witness for C3 at a concrete input. -/
theorem c3_opaque_overwrite_witness :
    layer_color ⟨1/2, 0, 1, 1⟩ ⟨0, 1, 0, 1/3⟩ = ⟨1/2, 0, 1, 1⟩ :=
  c3_opaque_overwrite ⟨1/2, 0, 1, 1⟩ ⟨0, 1, 0, 1/3⟩ rfl

/-- Claim C4: for every over color with alpha exactly 0 and every under
color with alpha in `[0, 1]`, `layer_color` returns the under color
exactly, in all four channels (transparent layer is a no-op). -/
theorem c4_transparent_noop (over under : ColorR) (h : over.a = 0)
    (h0 : 0 ≤ under.a) (h1 : under.a ≤ 1) :
    layer_color over under = under := by
  unfold layer_color
  ext <;> dsimp only
  · rw [h]; ring
  · rw [h]; ring
  · rw [h]; ring
  · rw [h]
    have : (0 : ℝ) ^ 2 + under.a ^ 2 = under.a ^ 2 := by ring
    rw [this, Real.sqrt_sq h0, min_eq_left h1]

/-- Witness for C4 at a concrete input. -/
theorem c4_transparent_noop_witness :
    layer_color ⟨3, 5, 7, 0⟩ ⟨1/3, 1, 0, 1/2⟩ = ⟨1/3, 1, 0, 1/2⟩ :=
  c4_transparent_noop ⟨3, 5, 7, 0⟩ ⟨1/3, 1, 0, 1/2⟩ rfl (by norm_num) (by norm_num)

/-- Claim C10: if all eight input channels lie in `[0, 1]` then so do all
four channels of `layer_color over under`: the RGB channels are convex
combinations and the alpha is clamped by `.min(1.0)`. -/
theorem c10_layer_in_range (over under : ColorR)
    (ho : inRange01 over) (hu : inRange01 under) :
    inRange01 (layer_color over under) := by
  obtain ⟨hor0, hor1, hog0, hog1, hob0, hob1, hoa0, hoa1⟩ := ho
  obtain ⟨hur0, hur1, hug0, hug1, hub0, hub1, hua0, hua1⟩ := hu
  have hw0 : 0 ≤ 1 - (1 - over.a) ^ 2 := by nlinarith
  have hw1 : 1 - (1 - over.a) ^ 2 ≤ 1 := by nlinarith [sq_nonneg (1 - over.a)]
  unfold layer_color inRange01
  dsimp only
  refine ⟨?_, ?_, ?_, ?_, ?_, ?_, ?_, ?_⟩
  · nlinarith
  · nlinarith
  · nlinarith
  · nlinarith
  · nlinarith
  · nlinarith
  · exact le_min (Real.sqrt_nonneg _) zero_le_one
  · exact min_le_right _ _

/-- Witness for C10 at a concrete input. -/
theorem c10_layer_in_range_witness :
    inRange01 (layer_color ⟨1, 0, 1/2, 1⟩ ⟨0, 1, 1/4, 0⟩) :=
  c10_layer_in_range ⟨1, 0, 1/2, 1⟩ ⟨0, 1, 1/4, 0⟩
    (by constructor <;> norm_num [inRange01])
    (by constructor <;> norm_num [inRange01])

/-- Claim C7 counterexample: the stored byte for channel value `1/2` is the
truncation of `127.5`, namely `127`, whereas rounding `1/2 * 255` to the
nearest integer gives `128`; so the conversion is not `round(c * 255)`. -/
theorem c7_counterexample :
    (color_f32_rgba ⟨1/2, 0, 0, 0⟩).r = 127 ∧ round ((1 : ℚ)/2 * 255) = 128 := by
  constructor
  · with_unfolding_all decide
  · norm_num [round_eq]

/-- Claim C7 amended: for a channel value in `[0, 1]` the stored byte equals
the floor (truncation) of `c * 255`, not its rounding. -/
theorem c7_amended_truncation (c : Color4) (h0 : 0 ≤ c.r) (h1 : c.r ≤ 1) :
    ((color_f32_rgba c).r : ℤ) = ⌊c.r * 255⌋ := by
  unfold color_f32_rgba toU8
  dsimp only
  split
  · rename_i hle
    have h255 : (0 : ℚ) ≤ c.r * 255 := by positivity
    have : c.r * 255 = 0 := le_antisymm hle h255
    rw [this]
    simp
  · rename_i hgt
    push_neg at hgt
    have hfl0 : (0 : ℤ) ≤ ⌊c.r * 255⌋ := by
      apply Int.floor_nonneg.mpr
      positivity
    have hfl255 : ⌊c.r * 255⌋ ≤ 255 := by
      have : c.r * 255 ≤ 255 := by nlinarith
      calc ⌊c.r * 255⌋ ≤ ⌊(255 : ℚ)⌋ := Int.floor_le_floor this
      _ = 255 := by norm_num
    have hmin : min 255 (Int.toNat ⌊c.r * 255⌋) = Int.toNat ⌊c.r * 255⌋ := by
      apply min_eq_right
      omega
    rw [hmin]
    omega

/-- Witness for the amended C7 at a concrete input. -/
theorem c7_amended_truncation_witness :
    (((color_f32_rgba ⟨1/2, 0, 0, 0⟩).r : ℤ) = ⌊(1 : ℚ)/2 * 255⌋) :=
  c7_amended_truncation ⟨1/2, 0, 0, 0⟩ (by norm_num) (by norm_num)

/-- Binary length of `m`; the first argument is structural fuel (any
`fuel ≥ m` gives the same value), so the kernel can evaluate it. -/
def bitsAux : ℕ → ℕ → ℕ
  | 0, _ => 0
  | fuel + 1, m => if m = 0 then 0 else bitsAux fuel (m / 2) + 1

/-- Binary length of `m`. -/
def bits (m : ℕ) : ℕ := bitsAux m m

theorem bitsAux_lt (fuel : ℕ) : ∀ m, m ≤ fuel → m < 2 ^ bitsAux fuel m := by
  induction fuel with
  | zero =>
    intro m h
    have hm : m = 0 := Nat.le_zero.mp h
    subst hm
    simp [bitsAux]
  | succ f ih =>
    intro m h
    by_cases hm : m = 0
    · subst hm; simp [bitsAux]
    · have h2 : m / 2 ≤ f := by omega
      have hb := ih (m / 2) h2
      have hrw : bitsAux (f + 1) m = bitsAux f (m / 2) + 1 := by
        simp [bitsAux, hm]
      rw [hrw, pow_succ]
      omega

theorem bits_lt (m : ℕ) : m < 2 ^ bits m := bitsAux_lt m m le_rfl

/-- Binary search for the floor square root of `n`, scanning bits from
high (`k`) to low. -/
def sqrtGo (n : ℕ) : ℕ → ℕ → ℕ
  | 0, acc => acc
  | k + 1, acc =>
    let c := acc + 2 ^ k
    if c * c ≤ n then sqrtGo n k c else sqrtGo n k acc

/-- Executable floor square root (the kernel can evaluate it, unlike
`Nat.sqrt`, whose well-founded recursion is opaque to reduction). -/
def isqrt (n : ℕ) : ℕ := sqrtGo n (bits n) 0

theorem sqrtGo_spec (n : ℕ) :
    ∀ k acc, acc * acc ≤ n → n < (acc + 2 ^ k) * (acc + 2 ^ k) →
      sqrtGo n k acc * sqrtGo n k acc ≤ n ∧
        n < (sqrtGo n k acc + 1) * (sqrtGo n k acc + 1) := by
  intro k
  induction k with
  | zero =>
    intro acc h1 h2
    simp only [sqrtGo]
    exact ⟨h1, by simpa using h2⟩
  | succ k ih =>
    intro acc h1 h2
    simp only [sqrtGo]
    split
    · rename_i hc
      refine ih (acc + 2 ^ k) hc ?_
      have : acc + 2 ^ k + 2 ^ k = acc + 2 ^ (k + 1) := by rw [pow_succ]; omega
      rw [this]
      exact h2
    · rename_i hc
      exact ih acc h1 (by omega)

theorem isqrt_eq_sqrt (n : ℕ) : isqrt n = Nat.sqrt n := by
  have h2 : n < (0 + 2 ^ bits n) * (0 + 2 ^ bits n) := by
    have hb := bits_lt n
    have h1 : (1 : ℕ) ≤ 2 ^ bits n := Nat.one_le_two_pow
    calc n < 2 ^ bits n := hb
    _ ≤ 2 ^ bits n * 2 ^ bits n := Nat.le_mul_of_pos_left _ (by omega)
    _ = (0 + 2 ^ bits n) * (0 + 2 ^ bits n) := by ring
  have h := sqrtGo_spec n (bits n) 0 (by simp) h2
  exact Nat.eq_sqrt.mpr h

/-- Floor of the square root of a nonnegative rational, executable:
`⌊√(n/d)⌋ = ⌊√(n·d)⌋ / d`. -/
def qSqrtFloor (x : ℚ) : ℕ := isqrt (x.num.toNat * x.den) / x.den

theorem qSqrtFloor_eq (x : ℚ) (hx : 0 ≤ x) :
    qSqrtFloor x = ⌊Real.sqrt (x : ℝ)⌋₊ := by
  have hd0 : (0 : ℝ) < (x.den : ℝ) := by exact_mod_cast x.pos
  have hdne : (x.den : ℝ) ≠ 0 := hd0.ne'
  have hxval : (x : ℝ) = (x.num.toNat * x.den : ℕ) / ((x.den : ℝ) ^ 2) := by
    have hnz : (0 : ℤ) ≤ x.num := Rat.num_nonneg.mpr hx
    rw [Rat.cast_def]
    push_cast [Int.toNat_of_nonneg hnz]
    field_simp
    have h1 : ((x.num.toNat : ℕ) : ℝ) = ((x.num : ℤ) : ℝ) := by
      exact_mod_cast Int.toNat_of_nonneg hnz
    rw [h1]
    ring
  have hsq : Real.sqrt (x : ℝ) = Real.sqrt (x.num.toNat * x.den : ℕ) / (x.den : ℝ) := by
    rw [hxval, Real.sqrt_div (by positivity), Real.sqrt_sq hd0.le]
  rw [qSqrtFloor, isqrt_eq_sqrt, hsq, Nat.floor_div_nat,
    Real.nat_floor_real_sqrt_eq_nat_sqrt]

/-- Rust `as u8` applied to a real value: truncate toward zero, clamp to
`[0, 255]`. -/
noncomputable def toU8R (x : ℝ) : ℕ :=
  if x ≤ 0 then 0 else min 255 ⌊x⌋₊

/-- Quantization of a real color into a stored pixel, channelwise
`(channel * 255.0) as u8` — the real-valued form of `color_f32_rgba`. -/
noncomputable def quantR (c : ColorR) : Pix :=
  ⟨toU8R (c.r * 255), toU8R (c.g * 255), toU8R (c.b * 255), toU8R (c.a * 255)⟩

/-- Casting a rational color into the reals. -/
def Color4.toR (c : Color4) : ColorR := ⟨c.r, c.g, c.b, c.a⟩

/-- The composite pipeline a draw call applies to one stored pixel: read it
back with `color_rgba_f32`, blend with `layer_color`, store with
`color_f32_rgba`.  Written in an executable form; `compositePix_eq` proves
it equal to the real-valued pipeline taken verbatim from the source. -/
def compositePix (over : Color4) (p : Pix) : Pix :=
  let u := color_rgba_f32 p
  let w : ℚ := 1 - (1 - over.a) ^ 2
  ⟨toU8 ((w * over.r + (1 - w) * u.r) * 255),
   toU8 ((w * over.g + (1 - w) * u.g) * 255),
   toU8 ((w * over.b + (1 - w) * u.b) * 255),
   min 255 (qSqrtFloor ((over.a ^ 2 + u.a ^ 2) * 65025))⟩

theorem toU8_eq_toU8R (q : ℚ) : toU8 q = toU8R (q : ℝ) := by
  unfold toU8 toU8R
  by_cases h : q ≤ 0
  · rw [if_pos h, if_pos (by exact_mod_cast h)]
  · rw [if_neg h, if_neg (by exact_mod_cast h)]
    congr 1
    rw [← @Rat.floor_cast ℝ _ _ q, Int.floor_toNat]

theorem toU8R_of_nonneg {x : ℝ} (h : 0 ≤ x) : toU8R x = min 255 ⌊x⌋₊ := by
  unfold toU8R
  split
  · rename_i hle
    have hx0 : x = 0 := le_antisymm hle h
    simp [hx0]
  · rfl

/-- The executable pixel composite agrees with the real-valued pipeline
`color_f32_rgba ∘ layer_color ∘ color_rgba_f32` from the source. -/
theorem compositePix_eq (over : Color4) (p : Pix) :
    compositePix over p = quantR (layer_color over.toR (color_rgba_f32 p).toR) := by
  unfold compositePix quantR layer_color Color4.toR
  dsimp only
  have hrgb : ∀ oc uc : ℚ,
      toU8 (((1 - (1 - over.a) ^ 2) * oc + (1 - (1 - (1 - over.a) ^ 2)) * uc) * 255) =
        toU8R (((1 - (1 - (over.a : ℝ)) ^ 2) * (oc : ℝ) +
          (1 - (1 - (1 - (over.a : ℝ)) ^ 2)) * (uc : ℝ)) * 255) := by
    intro oc uc
    rw [toU8_eq_toU8R]
    congr 1
    push_cast
    ring
  have halpha :
      min 255 (qSqrtFloor ((over.a ^ 2 + (color_rgba_f32 p).a ^ 2) * 65025)) =
        toU8R (min (Real.sqrt ((over.a : ℝ) ^ 2 + ((color_rgba_f32 p).a : ℝ) ^ 2)) 1 * 255) := by
    set s : ℚ := over.a ^ 2 + (color_rgba_f32 p).a ^ 2 with hs
    have hs0 : (0 : ℚ) ≤ s := by positivity
    have hS0 : (0 : ℝ) ≤ (s : ℝ) := by exact_mod_cast hs0
    have hcast : ((over.a : ℝ) ^ 2 + ((color_rgba_f32 p).a : ℝ) ^ 2) = (s : ℝ) := by
      rw [hs]; push_cast; ring
    rw [hcast]
    have hx0 : (0 : ℝ) ≤ min (Real.sqrt (s : ℝ)) 1 * 255 := by
      have := Real.sqrt_nonneg (s : ℝ)
      have : (0:ℝ) ≤ min (Real.sqrt (s : ℝ)) 1 := le_min this zero_le_one
      positivity
    rw [toU8R_of_nonneg hx0]
    have hmul : min (Real.sqrt (s : ℝ)) 1 * 255 = min (Real.sqrt (s : ℝ) * 255) 255 := by
      rw [min_mul_of_nonneg _ _ (by norm_num : (0:ℝ) ≤ 255)]
      norm_num
    have hsqrt255 : Real.sqrt (s : ℝ) * 255 = Real.sqrt ((s * 65025 : ℚ) : ℝ) := by
      push_cast
      rw [Real.sqrt_mul' _ (by norm_num : (0:ℝ) ≤ 65025)]
      congr 1
      rw [show (65025 : ℝ) = 255 ^ 2 by norm_num, Real.sqrt_sq (by norm_num : (0:ℝ) ≤ 255)]
    have hq : qSqrtFloor (s * 65025) = ⌊Real.sqrt ((s * 65025 : ℚ) : ℝ)⌋₊ :=
      qSqrtFloor_eq _ (by positivity)
    rw [hmul, hq, ← hsqrt255]
    rcases le_total (Real.sqrt (s : ℝ) * 255) 255 with hle | hge
    · rw [min_eq_left hle]
    · have h1 : 255 ≤ ⌊Real.sqrt (s : ℝ) * 255⌋₊ := by
        have h2 := Nat.floor_le_floor hge
        simpa using h2
      rw [min_eq_right hge]
      have h255 : ⌊(255 : ℝ)⌋₊ = 255 := by simp
      rw [h255]
      omega
  rw [hrgb, hrgb, hrgb, halpha]

/-- A 2-D point with `f32` coordinates, modelled as exact rationals. -/
structure Pt where
  x : ℚ
  y : ℚ
deriving DecidableEq

/-- A triangle: the three vertices `tri[0]`, `tri[1]`, `tri[2]`. -/
structure Tri where
  p0 : Pt
  p1 : Pt
  p2 : Pt
deriving DecidableEq

/-- `sign` (src/lib.rs:400). -/
def sign (p1 p2 p3 : Pt) : ℚ :=
  (p1.x - p3.x) * (p2.y - p3.y) - (p2.x - p3.x) * (p1.y - p3.y)

/-- `triangle_contains` (src/lib.rs:404): the three edge-sign booleans
`sign < 0` must agree. -/
def triangle_contains (tri : Tri) (point : Pt) : Bool :=
  let b1 : Bool := decide (sign point tri.p0 tri.p1 < 0)
  let b2 : Bool := decide (sign point tri.p1 tri.p2 < 0)
  let b3 : Bool := decide (sign point tri.p2 tri.p0 < 0)
  b1 == b2 && b2 == b3

/-- An `f32` value arising in the barycentric solve: a finite value (in the
exact-rational idealization), an infinity, or NaN.  The sign of a zero is
not tracked: it only influences the sign of the infinity produced by
`fdiv`, and nothing proved below depends on that sign. -/
inductive FV where
  | fin (q : ℚ)
  | pinf
  | ninf
  | nan
deriving DecidableEq

namespace FV

/-- IEEE addition restricted to the embedded values. -/
def add : FV → FV → FV
  | fin a, fin b => fin (a + b)
  | nan, _ => nan
  | _, nan => nan
  | pinf, ninf => nan
  | ninf, pinf => nan
  | pinf, _ => pinf
  | _, pinf => pinf
  | ninf, _ => ninf
  | _, ninf => ninf

/-- IEEE negation. -/
def neg : FV → FV
  | fin a => fin (-a)
  | pinf => ninf
  | ninf => pinf
  | nan => nan

/-- IEEE subtraction, `a - b = a + (-b)`. -/
def sub (a b : FV) : FV := add a (neg b)

/-- IEEE multiplication restricted to the embedded values
(`±∞ · 0 = NaN`). -/
def mul : FV → FV → FV
  | fin a, fin b => fin (a * b)
  | nan, _ => nan
  | _, nan => nan
  | pinf, pinf => pinf
  | pinf, ninf => ninf
  | ninf, pinf => ninf
  | ninf, ninf => pinf
  | pinf, fin b => if b = 0 then nan else if 0 < b then pinf else ninf
  | fin a, pinf => if a = 0 then nan else if 0 < a then pinf else ninf
  | ninf, fin b => if b = 0 then nan else if 0 < b then ninf else pinf
  | fin a, ninf => if a = 0 then nan else if 0 < a then ninf else pinf

/-- Whether the value is finite. -/
def isFinite : FV → Bool
  | fin _ => true
  | _ => false

end FV

/-- IEEE division of two finite `f32` values: NaN for `0/0`, a signed
infinity for `x/0` with `x ≠ 0`, otherwise exact. -/
def fdiv (n d : ℚ) : FV :=
  if d = 0 then (if n = 0 then FV.nan else if 0 < n then FV.pinf else FV.ninf)
  else FV.fin (n / d)

/-- The denominator `ae_cf = a*e + c*f` of the barycentric solve in
`map_to_triangle` (src/lib.rs:422); it is the cross product of two edges of
the triangle, so it vanishes exactly for triangles of zero area. -/
def aecf (t : Tri) : ℚ :=
  (t.p1.y - t.p2.y) * (t.p0.x - t.p2.x) + (t.p2.x - t.p1.x) * (t.p0.y - t.p2.y)

/-- `map_to_triangle` (src/lib.rs:411): solve for the barycentric weights
of `point` in `from_tri` and apply them to `to_tri`'s vertices.  The two
divisions by `ae_cf` go through `fdiv`; everything before them is finite
arithmetic on finite inputs. -/
def map_to_triangle (point : Pt) (from_tri to_tri : Tri) : FV × FV :=
  let t := from_tri
  let p := point
  let a := t.p1.y - t.p2.y
  let b := p.x - t.p2.x
  let c := t.p2.x - t.p1.x
  let d := p.y - t.p2.y
  let e := t.p0.x - t.p2.x
  let g := t.p2.y - t.p0.y
  let bary_a := fdiv (a * b + c * d) (aecf t)
  let bary_b := fdiv (g * b + e * d) (aecf t)
  let bary_c := FV.sub (FV.sub (FV.fin 1) bary_a) bary_b
  (FV.add (FV.add (FV.mul bary_a (FV.fin to_tri.p0.x)) (FV.mul bary_b (FV.fin to_tri.p1.x)))
     (FV.mul bary_c (FV.fin to_tri.p2.x)),
   FV.add (FV.add (FV.mul bary_a (FV.fin to_tri.p0.y)) (FV.mul bary_b (FV.fin to_tri.p1.y)))
     (FV.mul bary_c (FV.fin to_tri.p2.y)))

/-- Rust `f32::round`: round half away from zero. -/
def rustRound (q : ℚ) : ℤ :=
  if 0 ≤ q then ⌊q + 1/2⌋ else -⌊-q + 1/2⌋

/-- `f32::round` on an embedded value (special values round to themselves). -/
def roundFV : FV → FV
  | FV.fin q => FV.fin ((rustRound q : ℤ) : ℚ)
  | v => v

/-- Rust saturating cast `f32 as u32`: NaN goes to 0, `-∞` to 0, `+∞` to
`2³² - 1`, finite values truncate toward zero and clamp to `[0, 2³² - 1]`. -/
def castU32 : FV → ℕ
  | FV.fin q => if q ≤ 0 then 0 else min 4294967295 (Int.toNat ⌊q⌋)
  | FV.pinf => 4294967295
  | FV.ninf => 0
  | FV.nan => 0

/-- Wrapping `u32` subtraction of 1, as `self.width() - 1` compiles in
release mode (`0` wraps to `2³² - 1`). -/
def u32sub1 (w : ℕ) : ℕ := (w + 4294967295) % 4294967296

/-- The texel coordinates read by `tri_list_uv` (src/lib.rs:340-343):
`(mapped_point[i].round() as u32).min(extent - 1)` in each axis. -/
def sample_coord (mapped : FV × FV) (tw th : ℕ) : ℕ × ℕ :=
  (min (castU32 (roundFV mapped.1)) (u32sub1 tw),
   min (castU32 (roundFV mapped.2)) (u32sub1 th))

/-- `point_image_scale` (src/lib.rs:432). -/
def point_image_scale (point : Pt) (size : ℕ × ℕ) : Pt :=
  ⟨point.x * size.1, point.y * size.2⟩

/-- `tri_image_scale` (src/lib.rs:436). -/
def tri_image_scale (tri : Tri) (size : ℕ × ℕ) : Tri :=
  ⟨point_image_scale tri.p0 size, point_image_scale tri.p1 size,
   point_image_scale tri.p2 size⟩

/-- A clipped integer scan box `[tlx, brx) × [tly, bry)`. -/
structure Bounds where
  tlx : ℤ
  tly : ℤ
  brx : ℤ
  bry : ℤ
deriving DecidableEq

/-- The clipped scan box computed by `tri_list` (src/lib.rs:246-258).
The min/max folds start from `[0.0, 0.0]`; low edges are floored and
clamped to ≥ 0, high edges are ceiled and clamped to the buffer extent. -/
def flatBounds (w h : ℕ) (t : Tri) : Bounds :=
  let tlx : ℚ := min (min (min 0 t.p0.x) t.p1.x) t.p2.x
  let tly : ℚ := min (min (min 0 t.p0.y) t.p1.y) t.p2.y
  let brx : ℚ := max (max (max 0 t.p0.x) t.p1.x) t.p2.x
  let bry : ℚ := max (max (max 0 t.p0.y) t.p1.y) t.p2.y
  ⟨max ⌊tlx⌋ 0, max ⌊tly⌋ 0, min ⌈brx⌉ (w : ℤ), min ⌈bry⌉ (h : ℤ)⟩

/-- The clipped scan box computed by `tri_list_uv` (src/lib.rs:308-320):
as `flatBounds`, but the high edges clamp to `extent - 1` (a wrapping
`u32` subtraction), not to the extent. -/
def uvBounds (w h : ℕ) (t : Tri) : Bounds :=
  let tlx : ℚ := min (min (min 0 t.p0.x) t.p1.x) t.p2.x
  let tly : ℚ := min (min (min 0 t.p0.y) t.p1.y) t.p2.y
  let brx : ℚ := max (max (max 0 t.p0.x) t.p1.x) t.p2.x
  let bry : ℚ := max (max (max 0 t.p0.y) t.p1.y) t.p2.y
  ⟨max ⌊tlx⌋ 0, max ⌊tly⌋ 0, min ⌈brx⌉ ((u32sub1 w : ℕ) : ℤ),
    min ⌈bry⌉ ((u32sub1 h : ℕ) : ℤ)⟩

/-- The scan box that claim C6 describes: the triangle's own bounding box
(low edges `floor` of the vertex minimum clamped to ≥ 0, high edges `ceil`
of the vertex maximum clamped to the buffer extent) — the region
`bbox ∩ [0, w) × [0, h)`.  Stated from the claim's words, for comparison
with `flatBounds`/`uvBounds`. -/
def claimedBounds (w h : ℕ) (t : Tri) : Bounds :=
  let tlx : ℚ := min (min t.p0.x t.p1.x) t.p2.x
  let tly : ℚ := min (min t.p0.y t.p1.y) t.p2.y
  let brx : ℚ := max (max t.p0.x t.p1.x) t.p2.x
  let bry : ℚ := max (max t.p0.y t.p1.y) t.p2.y
  ⟨max ⌊tlx⌋ 0, max ⌊tly⌋ 0, min ⌈brx⌉ (w : ℤ), min ⌈bry⌉ (h : ℤ)⟩

theorem u32sub1_eq {w : ℕ} (h1 : 1 ≤ w) (h2 : w < 4294967296) :
    u32sub1 w = w - 1 := by
  unfold u32sub1
  omega

/-- Claim C6 counterexample: for the triangle (2,2),(3,2),(2,3) in a 10×10
buffer the UV scan box starts at column 0 — the bound folds start at
`[0.0, 0.0]` — not at the triangle's bounding box; and for the triangle
(0,0),(20,0),(0,20) the UV high edges clamp to 9 (= width−1) while the
flat fill clamps to 10 (= width), so the UV box also differs from the flat
one. -/
theorem c6_counterexample :
    uvBounds 10 10 ⟨⟨2, 2⟩, ⟨3, 2⟩, ⟨2, 3⟩⟩ ≠
        claimedBounds 10 10 ⟨⟨2, 2⟩, ⟨3, 2⟩, ⟨2, 3⟩⟩ ∧
      uvBounds 10 10 ⟨⟨0, 0⟩, ⟨20, 0⟩, ⟨0, 20⟩⟩ ≠
        flatBounds 10 10 ⟨⟨0, 0⟩, ⟨20, 0⟩, ⟨0, 20⟩⟩ := by
  with_unfolding_all decide

/-- Claim C6 amended: the UV scan box equals the flat-fill scan box with
its high edges additionally clamped to `extent - 1`; in both boxes the low
edges are always 0, because the coordinate folds start from `[0.0, 0.0]`
(the box is the bounding box of the vertices *and the origin*, clipped). -/
theorem c6_uv_bounds_amended (w h : ℕ) (hw1 : 1 ≤ w) (hw2 : w < 4294967296)
    (hh1 : 1 ≤ h) (hh2 : h < 4294967296) (t : Tri) :
    uvBounds w h t =
      ⟨(flatBounds w h t).tlx, (flatBounds w h t).tly,
        min (flatBounds w h t).brx ((w : ℤ) - 1),
        min (flatBounds w h t).bry ((h : ℤ) - 1)⟩ ∧
      (flatBounds w h t).tlx = 0 ∧ (flatBounds w h t).tly = 0 := by
  have hsub : ∀ {u : ℕ}, 1 ≤ u → u < 4294967296 → ((u32sub1 u : ℕ) : ℤ) = (u : ℤ) - 1 := by
    intro u hu1 hu2
    rw [u32sub1_eq hu1 hu2]
    omega
  have htl : ∀ q1 q2 q3 : ℚ, max ⌊min (min (min 0 q1) q2) q3⌋ 0 = 0 := by
    intro q1 q2 q3
    have hle : min (min (min 0 q1) q2) q3 ≤ 0 := by
      calc min (min (min 0 q1) q2) q3 ≤ min (min 0 q1) q2 := min_le_left _ _
      _ ≤ min 0 q1 := min_le_left _ _
      _ ≤ 0 := min_le_left _ _
    have : ⌊min (min (min 0 q1) q2) q3⌋ ≤ 0 := by
      calc ⌊min (min (min 0 q1) q2) q3⌋ ≤ ⌊(0 : ℚ)⌋ := Int.floor_le_floor hle
      _ = 0 := by norm_num
    omega
  refine ⟨?_, htl _ _ _, htl _ _ _⟩
  unfold uvBounds flatBounds
  dsimp only
  rw [hsub hw1 hw2, hsub hh1 hh2]
  have hmm : ∀ X u : ℤ, min X (u - 1) = min (min X u) (u - 1) := by
    intro X u
    rw [min_assoc, min_eq_right (by omega : u - 1 ≤ u)]
  rw [Bounds.mk.injEq]
  exact ⟨rfl, rfl, hmm _ _, hmm _ _⟩

/-- Witness for the amended C6 at a concrete input. -/
theorem c6_uv_bounds_amended_witness :
    uvBounds 10 10 ⟨⟨2, 2⟩, ⟨3, 2⟩, ⟨2, 3⟩⟩ =
      ⟨(flatBounds 10 10 ⟨⟨2, 2⟩, ⟨3, 2⟩, ⟨2, 3⟩⟩).tlx,
        (flatBounds 10 10 ⟨⟨2, 2⟩, ⟨3, 2⟩, ⟨2, 3⟩⟩).tly,
        min (flatBounds 10 10 ⟨⟨2, 2⟩, ⟨3, 2⟩, ⟨2, 3⟩⟩).brx ((10 : ℤ) - 1),
        min (flatBounds 10 10 ⟨⟨2, 2⟩, ⟨3, 2⟩, ⟨2, 3⟩⟩).bry ((10 : ℤ) - 1)⟩ ∧
      (flatBounds 10 10 ⟨⟨2, 2⟩, ⟨3, 2⟩, ⟨2, 3⟩⟩).tlx = 0 ∧
      (flatBounds 10 10 ⟨⟨2, 2⟩, ⟨3, 2⟩, ⟨2, 3⟩⟩).tly = 0 :=
  c6_uv_bounds_amended 10 10 (by norm_num) (by norm_num) (by norm_num) (by norm_num) _

/-- Claim C8: for any destination point and triangle pair, the texel
coordinates actually read by `tri_list_uv` lie within
`[0, tw-1] × [0, th-1]`, whatever the barycentric mapping produced
(finite, negative, oversized, infinite or NaN values all saturate and are
clamped by the final `.min`). -/
theorem c8_sample_in_range (p : Pt) (ft stt : Tri) (tw th : ℕ)
    (htw1 : 1 ≤ tw) (htw2 : tw < 4294967296)
    (hth1 : 1 ≤ th) (hth2 : th < 4294967296) :
    (sample_coord (map_to_triangle p ft stt) tw th).1 ≤ tw - 1 ∧
      (sample_coord (map_to_triangle p ft stt) tw th).2 ≤ th - 1 := by
  unfold sample_coord
  rw [u32sub1_eq htw1 htw2, u32sub1_eq hth1 hth2]
  exact ⟨min_le_right _ _, min_le_right _ _⟩

/-- Witness for C8 at a concrete (degenerate, NaN-producing) input. -/
theorem c8_sample_in_range_witness :
    (sample_coord
        (map_to_triangle ⟨1, 1⟩ ⟨⟨0, 0⟩, ⟨2, 2⟩, ⟨4, 4⟩⟩ ⟨⟨0, 0⟩, ⟨2, 0⟩, ⟨0, 2⟩⟩) 2 2).1 ≤
        2 - 1 ∧
      (sample_coord
          (map_to_triangle ⟨1, 1⟩ ⟨⟨0, 0⟩, ⟨2, 2⟩, ⟨4, 4⟩⟩ ⟨⟨0, 0⟩, ⟨2, 0⟩, ⟨0, 2⟩⟩) 2 2).2 ≤
        2 - 1 :=
  c8_sample_in_range ⟨1, 1⟩ ⟨⟨0, 0⟩, ⟨2, 2⟩, ⟨4, 4⟩⟩ ⟨⟨0, 0⟩, ⟨2, 0⟩, ⟨0, 2⟩⟩ 2 2
    (by norm_num) (by norm_num) (by norm_num) (by norm_num)

theorem FV.add_finite {a b : FV} (h : (FV.add a b).isFinite = true) :
    a.isFinite = true ∧ b.isFinite = true := by
  cases a <;> cases b <;> simp_all [FV.add, FV.isFinite]

theorem FV.mul_fin_finite {a : FV} {q : ℚ} (h : (FV.mul a (FV.fin q)).isFinite = true) :
    a.isFinite = true := by
  cases a with
  | fin p => rfl
  | pinf => rw [FV.mul] at h; split_ifs at h <;> simp [FV.isFinite] at h
  | ninf => rw [FV.mul] at h; split_ifs at h <;> simp [FV.isFinite] at h
  | nan => rw [FV.mul] at h; simp [FV.isFinite] at h

theorem FV.sum3_not_finite {u : FV} (v wv : FV) (q1 q2 q3 : ℚ)
    (h : u.isFinite = false) :
    (FV.add (FV.add (FV.mul u (FV.fin q1)) (FV.mul v (FV.fin q2)))
        (FV.mul wv (FV.fin q3))).isFinite = false := by
  cases hfin : (FV.add (FV.add (FV.mul u (FV.fin q1)) (FV.mul v (FV.fin q2)))
      (FV.mul wv (FV.fin q3))).isFinite with
  | false => rfl
  | true =>
    obtain ⟨h1, _⟩ := FV.add_finite hfin
    obtain ⟨h2, _⟩ := FV.add_finite h1
    have h3 := FV.mul_fin_finite h2
    rw [h] at h3
    cases h3

theorem fdiv_zero_not_finite {n : ℚ} : (fdiv n 0).isFinite = false := by
  unfold fdiv
  rw [if_pos rfl]
  split_ifs <;> rfl

/-- For a degenerate source triangle the barycentric mapping never
produces a finite coordinate. -/
theorem map_degenerate_not_finite (p : Pt) (ft stt : Tri) (hdeg : aecf ft = 0) :
    (map_to_triangle p ft stt).1.isFinite = false ∧
      (map_to_triangle p ft stt).2.isFinite = false := by
  unfold map_to_triangle
  dsimp only
  rw [hdeg]
  exact ⟨FV.sum3_not_finite _ _ _ _ _ fdiv_zero_not_finite,
    FV.sum3_not_finite _ _ _ _ _ fdiv_zero_not_finite⟩

/-- Claim C5 amended: the barycentric solve has no degenerate-triangle
guard.  For a zero-area destination triangle (`ae_cf = 0`) both mapped
coordinates are non-finite (NaN or an infinity); the saturating `as u32`
cast and the final `.min` still land the texel read inside the texture, so
no out-of-range read and no NaN pixel bytes occur — but the triangle is
processed, not skipped (see `c5_counterexample`). -/
theorem c5_no_guard_but_clamped (p : Pt) (ft stt : Tri) (tw th : ℕ)
    (htw1 : 1 ≤ tw) (htw2 : tw < 4294967296)
    (hth1 : 1 ≤ th) (hth2 : th < 4294967296)
    (hdeg : aecf ft = 0) :
    (map_to_triangle p ft stt).1.isFinite = false ∧
      (map_to_triangle p ft stt).2.isFinite = false ∧
      (sample_coord (map_to_triangle p ft stt) tw th).1 ≤ tw - 1 ∧
      (sample_coord (map_to_triangle p ft stt) tw th).2 ≤ th - 1 := by
  obtain ⟨h1, h2⟩ := map_degenerate_not_finite p ft stt hdeg
  refine ⟨h1, h2, ?_, ?_⟩
  · unfold sample_coord
    rw [u32sub1_eq htw1 htw2]
    exact min_le_right _ _
  · unfold sample_coord
    rw [u32sub1_eq hth1 hth2]
    exact min_le_right _ _

/-- Witness for the amended C5 at a concrete degenerate input. -/
theorem c5_no_guard_but_clamped_witness :
    (map_to_triangle ⟨1, 1⟩ ⟨⟨0, 0⟩, ⟨2, 2⟩, ⟨4, 4⟩⟩ ⟨⟨0, 0⟩, ⟨2, 0⟩, ⟨0, 2⟩⟩).1.isFinite =
        false ∧
      (map_to_triangle ⟨1, 1⟩ ⟨⟨0, 0⟩, ⟨2, 2⟩, ⟨4, 4⟩⟩ ⟨⟨0, 0⟩, ⟨2, 0⟩, ⟨0, 2⟩⟩).2.isFinite =
        false ∧
      (sample_coord
          (map_to_triangle ⟨1, 1⟩ ⟨⟨0, 0⟩, ⟨2, 2⟩, ⟨4, 4⟩⟩ ⟨⟨0, 0⟩, ⟨2, 0⟩, ⟨0, 2⟩⟩) 2 2).1 ≤
        2 - 1 ∧
      (sample_coord
          (map_to_triangle ⟨1, 1⟩ ⟨⟨0, 0⟩, ⟨2, 2⟩, ⟨4, 4⟩⟩ ⟨⟨0, 0⟩, ⟨2, 0⟩, ⟨0, 2⟩⟩) 2 2).2 ≤
        2 - 1 :=
  c5_no_guard_but_clamped ⟨1, 1⟩ ⟨⟨0, 0⟩, ⟨2, 2⟩, ⟨4, 4⟩⟩ ⟨⟨0, 0⟩, ⟨2, 0⟩, ⟨0, 2⟩⟩ 2 2
    (by norm_num) (by norm_num) (by norm_num) (by norm_num)
    (by unfold aecf; norm_num)

/-- Rust cast `f32 as i32`: truncation toward zero (the saturation of the
cast is unreachable at the magnitudes produced here). -/
def rustTrunc (q : ℚ) : ℤ :=
  if 0 ≤ q then ⌊q⌋ else -⌊-q⌋

/-- The mutable state during one draw call: the pixel grid of the
`RenderBuffer`, the per-call coverage bitmap `used`, and a ghost count of
how many composite operations have hit each pixel during the call. -/
structure CallState where
  grid : ℕ → ℕ → Pix
  used : ℕ → ℕ → Bool
  count : ℕ → ℕ → ℕ

/-- Pointwise update of a pixel grid. -/
def setPix (g : ℕ → ℕ → Pix) (x y : ℕ) (v : Pix) : ℕ → ℕ → Pix :=
  fun i j => if i = x ∧ j = y then v else g i j

/-- One composite operation on pixel `(x, y)` (src/lib.rs:268-284,
344-355): read the pixel back, layer `over` atop it, store the result, and
set the coverage bit. -/
def compositeAt (over : Color4) (x y : ℕ) (s : CallState) : CallState :=
  { grid := setPix s.grid x y (compositePix over (s.grid x y)),
    used := fun i j => if i = x ∧ j = y then true else s.used i j,
    count := fun i j => if i = x ∧ j = y then s.count i j + 1 else s.count i j }

/-- The integer range `[lo, hi)` as an ascending list. -/
def intRange (lo hi : ℤ) : List ℤ :=
  (List.range (hi - lo).toNat).map (fun i : ℕ => lo + (i : ℤ))

/-- The inner row loop of `tri_list` for one column `x`
(src/lib.rs:263-289): scan `ys` in order; at a contained pixel, composite
only if the coverage bit is clear (`!used[x].get(y).unwrap_or(true)`);
after having been inside the triangle, leaving it breaks the loop. -/
def flatScanCol (h : ℕ) (color : Color4) (t : Tri) (x : ℤ) :
    List ℤ → Bool → CallState → CallState
  | [], _, s => s
  | y :: ys, entered, s =>
    if triangle_contains t ⟨(x : ℚ), (y : ℚ)⟩ then
      flatScanCol h color t x ys true
        (if (if y.toNat < h then s.used x.toNat y.toNat else true) then s
         else compositeAt color x.toNat y.toNat s)
    else if entered then s
    else flatScanCol h color t x ys false s

/-- One triangle of a `tri_list` call (src/lib.rs:244-291).  The column
loop is distributed over parallel workers, but each worker owns its whole
`x` column (pixels and coverage bits), so ascending sequential column
order is an equivalent schedule. -/
def flatTri (w h : ℕ) (color : Color4) (s : CallState) (t : Tri) : CallState :=
  let bnds := flatBounds w h t
  (intRange bnds.tlx bnds.brx).foldl
    (fun s x => flatScanCol h color t x (intRange bnds.tly bnds.bry) false s) s

/-- `tri_list` (src/lib.rs:237-293): reset the coverage bitmap
(`reset_used`, src/lib.rs:130), then fill the triangles in order. -/
def tri_list (w h : ℕ) (color : Color4) (g0 : ℕ → ℕ → Pix) (ts : List Tri) :
    CallState :=
  ts.foldl (flatTri w h color) ⟨g0, fun _ _ => false, fun _ _ => 0⟩

/-- A texture (a `RenderBuffer` read through `get_pixel`). -/
structure TexBuf where
  w : ℕ
  h : ℕ
  grid : ℕ → ℕ → Pix

/-- The per-pixel body of `tri_list_uv` (src/lib.rs:336-356): map the
destination point into the scaled texture triangle, sample the clamped
texel, tint it with `color_mul`, and composite.  The coverage bit is set
(inside `compositeAt`) but — unlike the flat fill — never consulted. -/
def uvCompositeAt (color : Color4) (tex : TexBuf) (t stt : Tri) (x y : ℤ)
    (s : CallState) : CallState :=
  let mapped := map_to_triangle ⟨(x : ℚ), (y : ℚ)⟩ t stt
  let sc := sample_coord mapped tex.w tex.h
  let texel := color_rgba_f32 (tex.grid sc.1 sc.2)
  compositeAt (color_mul color texel) x.toNat y.toNat s

/-- The inner row loop of `tri_list_uv` for one column
(src/lib.rs:328-360); `ys` is ascending or descending according to
`vertical_balance_top`. -/
def uvScanCol (color : Color4) (tex : TexBuf) (t stt : Tri) (x : ℤ) :
    List ℤ → Bool → CallState → CallState
  | [], _, s => s
  | y :: ys, entered, s =>
    if triangle_contains t ⟨(x : ℚ), (y : ℚ)⟩ then
      uvScanCol color tex t stt x ys true (uvCompositeAt color tex t stt x y s)
    else if entered then s
    else uvScanCol color tex t stt x ys false s

/-- One (destination, uv) triangle pair of a `tri_list_uv` call
(src/lib.rs:306-362), including the `vertical_balance_top` choice of row
scan direction (`avg_y` casts with `as i32`, `vert_center` is an `i32`
division; both truncate toward zero). -/
def uvTriFill (w h : ℕ) (color : Color4) (tex : TexBuf) (s : CallState)
    (pair : Tri × Tri) : CallState :=
  let t := pair.1
  let bnds := uvBounds w h t
  let avg_y : ℤ := rustTrunc ((t.p0.y + t.p1.y + t.p2.y) / 3)
  let vert_center : ℤ := Int.tdiv (bnds.bry - bnds.tly) 2
  let scaled := tri_image_scale pair.2 (tex.w, tex.h)
  let ys := if avg_y < vert_center then intRange bnds.tly bnds.bry
    else (intRange bnds.tly bnds.bry).reverse
  (intRange bnds.tlx bnds.brx).foldl
    (fun s x => uvScanCol color tex t scaled x ys false s) s

/-- `tri_list_uv` (src/lib.rs:294-364): reset the coverage bitmap, then
fill the triangle pairs in order. -/
def tri_list_uv (w h : ℕ) (color : Color4) (tex : TexBuf) (g0 : ℕ → ℕ → Pix)
    (ts : List (Tri × Tri)) : CallState :=
  ts.foldl (uvTriFill w h color tex) ⟨g0, fun _ _ => false, fun _ _ => 0⟩

/-- Claim C1, evaluated at the failing input: a `tri_list_uv` call whose
two (identical) triangles both cover pixel (1,1) composites that pixel
twice — `tri_list_uv` sets the coverage bit but, unlike `tri_list`, never
consults it — and the pixel ends at the double-blend value, not the
single-blend value the claim requires. -/
theorem c1_uv_double_composite :
    (tri_list_uv 6 6 ⟨1, 1, 1, 1/2⟩ ⟨1, 1, fun _ _ => ⟨255, 255, 255, 255⟩⟩
          (fun _ _ => ⟨0, 0, 0, 0⟩)
          [(⟨⟨0, 0⟩, ⟨2, 0⟩, ⟨0, 2⟩⟩, ⟨⟨0, 0⟩, ⟨1, 0⟩, ⟨0, 1⟩⟩),
           (⟨⟨0, 0⟩, ⟨2, 0⟩, ⟨0, 2⟩⟩, ⟨⟨0, 0⟩, ⟨1, 0⟩, ⟨0, 1⟩⟩)]).count 1 1 = 2 ∧
      (tri_list_uv 6 6 ⟨1, 1, 1, 1/2⟩ ⟨1, 1, fun _ _ => ⟨255, 255, 255, 255⟩⟩
          (fun _ _ => ⟨0, 0, 0, 0⟩)
          [(⟨⟨0, 0⟩, ⟨2, 0⟩, ⟨0, 2⟩⟩, ⟨⟨0, 0⟩, ⟨1, 0⟩, ⟨0, 1⟩⟩),
           (⟨⟨0, 0⟩, ⟨2, 0⟩, ⟨0, 2⟩⟩, ⟨⟨0, 0⟩, ⟨1, 0⟩, ⟨0, 1⟩⟩)]).grid 1 1 ≠
        compositePix (color_mul ⟨1, 1, 1, 1/2⟩ ⟨1, 1, 1, 1⟩) ⟨0, 0, 0, 0⟩ := by
  with_unfolding_all decide

/-- Claim C5 counterexample: a `tri_list_uv` call containing a degenerate
(zero-area) triangle — the collinear (0,0),(2,2),(4,4) — does not skip it:
pixel (1,1), whose center lies on the line and passes the sign test, is
composited once, with the texel that the NaN sample coordinates saturate
to (texel (0,0), white), turning the pixel white. -/
theorem c5_counterexample :
    aecf ⟨⟨0, 0⟩, ⟨2, 2⟩, ⟨4, 4⟩⟩ = 0 ∧
      (tri_list_uv 6 6 ⟨1, 1, 1, 1⟩
            ⟨2, 2, fun i j => if i = 0 ∧ j = 0 then ⟨255, 255, 255, 255⟩
              else ⟨0, 0, 0, 255⟩⟩
            (fun _ _ => ⟨0, 0, 0, 255⟩)
            [(⟨⟨0, 0⟩, ⟨2, 2⟩, ⟨4, 4⟩⟩, ⟨⟨0, 0⟩, ⟨1, 0⟩, ⟨0, 1⟩⟩)]).count 1 1 = 1 ∧
      (tri_list_uv 6 6 ⟨1, 1, 1, 1⟩
            ⟨2, 2, fun i j => if i = 0 ∧ j = 0 then ⟨255, 255, 255, 255⟩
              else ⟨0, 0, 0, 255⟩⟩
            (fun _ _ => ⟨0, 0, 0, 255⟩)
            [(⟨⟨0, 0⟩, ⟨2, 2⟩, ⟨4, 4⟩⟩, ⟨⟨0, 0⟩, ⟨1, 0⟩, ⟨0, 1⟩⟩)]).grid 1 1 =
        ⟨255, 255, 255, 255⟩ := by
  with_unfolding_all decide

/-- Claim C2 counterexample: pixel (2,0) passes the membership test of the
triangle (0,0),(2,0),(0,2) — it is covered — yet the half-open clipped
scan range `0..ceil(max x)` excludes column 2, so one `tri_list` call with
that triangle never composites the pixel: its count stays 0 and it keeps
its pre-call value, although one composite would have changed it. -/
theorem c2_counterexample :
    triangle_contains ⟨⟨0, 0⟩, ⟨2, 0⟩, ⟨0, 2⟩⟩ ⟨2, 0⟩ = true ∧
      (tri_list 4 4 ⟨1, 1, 1, 1⟩ (fun _ _ => ⟨0, 0, 0, 255⟩)
          [⟨⟨0, 0⟩, ⟨2, 0⟩, ⟨0, 2⟩⟩]).count 2 0 = 0 ∧
      (tri_list 4 4 ⟨1, 1, 1, 1⟩ (fun _ _ => ⟨0, 0, 0, 255⟩)
          [⟨⟨0, 0⟩, ⟨2, 0⟩, ⟨0, 2⟩⟩]).grid 2 0 = ⟨0, 0, 0, 255⟩ ∧
      compositePix ⟨1, 1, 1, 1⟩ ⟨0, 0, 0, 255⟩ ≠ ⟨0, 0, 0, 255⟩ := by
  with_unfolding_all decide

/-- Fold preservation of a predicate, with membership available. -/
theorem foldl_preserve_mem {α σ : Type} (P : σ → Prop) (f : σ → α → σ) :
    ∀ (l : List α) (s : σ), (∀ s' a, a ∈ l → P s' → P (f s' a)) → P s →
      P (l.foldl f s)
  | [], _, _, hs => hs
  | a :: l, s, hf, hs => by
    rw [List.foldl_cons]
    exact foldl_preserve_mem P f l (f s a)
      (fun s' b hb => hf s' b (List.mem_cons_of_mem a hb))
      (hf s a (List.mem_cons_self a l) hs)

/-- The per-call invariant of the flat fill: every pixel is either
untouched (coverage bit clear, ghost count 0, original value) or has been
composited exactly once (bit set, count 1, value = one composite of the
draw color over the pre-call value). -/
def FlatInv (color : Color4) (g0 : ℕ → ℕ → Pix) (s : CallState) : Prop :=
  ∀ i j,
    (s.used i j = false ∧ s.count i j = 0 ∧ s.grid i j = g0 i j) ∨
    (s.used i j = true ∧ s.count i j = 1 ∧ s.grid i j = compositePix color (g0 i j))

/-- A composite at `(x, y)` leaves every other pixel's state untouched. -/
theorem compositeAt_other {over : Color4} {x y px py : ℕ} {s : CallState}
    (hne : ¬(px = x ∧ py = y)) :
    (compositeAt over x y s).grid px py = s.grid px py ∧
      (compositeAt over x y s).used px py = s.used px py ∧
      (compositeAt over x y s).count px py = s.count px py := by
  unfold compositeAt setPix
  refine ⟨?_, ?_, ?_⟩ <;> dsimp only <;> rw [if_neg hne]

theorem flatInv_compositeAt {color : Color4} {g0 : ℕ → ℕ → Pix} {s : CallState}
    (x y : ℕ) (hinv : FlatInv color g0 s) (hused : s.used x y = false) :
    FlatInv color g0 (compositeAt color x y s) := by
  intro i j
  by_cases hij : i = x ∧ j = y
  · obtain ⟨hx1, hy1⟩ := hij
    subst hx1; subst hy1
    rcases hinv i j with ⟨_, h2, h3⟩ | ⟨h1, _, _⟩
    · right
      unfold compositeAt setPix
      refine ⟨?_, ?_, ?_⟩ <;> dsimp only <;> rw [if_pos ⟨rfl, rfl⟩]
      · rw [h2]
      · rw [h3]
    · simp [hused] at h1
  · obtain ⟨e1, e2, e3⟩ := @compositeAt_other color x y i j s hij
    rw [e1, e2, e3]
    exact hinv i j

theorem flatInv_scanCol {color : Color4} {g0 : ℕ → ℕ → Pix} (h : ℕ) (t : Tri)
    (x : ℤ) :
    ∀ (ys : List ℤ) (entered : Bool) (s : CallState), FlatInv color g0 s →
      FlatInv color g0 (flatScanCol h color t x ys entered s) := by
  intro ys
  induction ys with
  | nil =>
    intro entered s hs
    simpa only [flatScanCol] using hs
  | cons y ys ih =>
    intro entered s hs
    rw [flatScanCol]
    split
    · apply ih
      by_cases hy : y.toNat < h
      · rw [if_pos hy]
        by_cases hb : s.used x.toNat y.toNat = true
        · rw [if_pos hb]
          exact hs
        · rw [if_neg hb]
          exact flatInv_compositeAt _ _ hs (by simpa using hb)
      · rw [if_neg hy, if_pos rfl]
        exact hs
    · split
      · exact hs
      · exact ih false s hs

/-- The flat-fill invariant holds at the end of every `tri_list` call. -/
theorem flatInv_tri_list (w h : ℕ) (color : Color4) (g0 : ℕ → ℕ → Pix)
    (ts : List Tri) : FlatInv color g0 (tri_list w h color g0 ts) := by
  have hstep : ∀ (s : CallState) (t : Tri), t ∈ ts → FlatInv color g0 s →
      FlatInv color g0 (flatTri w h color s t) := by
    intro s t _ hs
    have hcols := foldl_preserve_mem (FlatInv color g0)
      (fun s0 x => flatScanCol h color t x
        (intRange (flatBounds w h t).tly (flatBounds w h t).bry) false s0)
      (intRange (flatBounds w h t).tlx (flatBounds w h t).brx) s
      (fun s0 x _ hs0 => flatInv_scanCol h t x _ _ s0 hs0) hs
    unfold flatTri
    exact hcols
  have hinit : FlatInv color g0
      (⟨g0, fun _ _ => false, fun _ _ => 0⟩ : CallState) := by
    intro i j
    left
    exact ⟨rfl, rfl, rfl⟩
  have := foldl_preserve_mem (FlatInv color g0) (flatTri w h color) ts
    ⟨g0, fun _ _ => false, fun _ _ => 0⟩ (fun s t ht hs => hstep s t ht hs) hinit
  unfold tri_list
  exact this

theorem mem_intRange_le {lo hi z : ℤ} (hz : z ∈ intRange lo hi) : lo ≤ z := by
  unfold intRange at hz
  rw [List.mem_map] at hz
  obtain ⟨i, _, hz2⟩ := hz
  subst hz2
  omega

theorem count_compositeAt_other {over : Color4} {x y px py : ℕ} {s : CallState}
    (hne : ¬(px = x ∧ py = y)) :
    (compositeAt over x y s).count px py = s.count px py := by
  unfold compositeAt
  dsimp only
  rw [if_neg hne]

/-- A pixel whose center fails the membership test of a triangle is never
composited by a column scan of that triangle (scan coordinates are
nonnegative, so they name the pixel unambiguously). -/
theorem count_scanCol_not_contained {color : Color4} (h : ℕ) {t : Tri} {x : ℤ}
    {px py : ℕ} (hx : 0 ≤ x)
    (hnc : triangle_contains t ⟨(px : ℚ), (py : ℚ)⟩ = false) :
    ∀ (ys : List ℤ) (entered : Bool) (s : CallState), (∀ y ∈ ys, 0 ≤ y) →
      (flatScanCol h color t x ys entered s).count px py = s.count px py := by
  intro ys
  induction ys with
  | nil =>
    intro entered s _
    rw [flatScanCol]
  | cons y ys ih =>
    intro entered s hys
    have hys' : ∀ z ∈ ys, 0 ≤ z := fun z hz => hys z (List.mem_cons_of_mem _ hz)
    rw [flatScanCol]
    split
    · rename_i hcont
      rw [ih true _ hys']
      by_cases hy : y.toNat < h
      swap
      · rw [if_neg hy, if_pos rfl]
      rw [if_pos hy]
      by_cases hb : s.used x.toNat y.toNat = true
      · rw [if_pos hb]
      · rw [if_neg hb]
        apply count_compositeAt_other
        rintro ⟨hpx, hpy⟩
        have hy0 : (0 : ℤ) ≤ y := hys y (List.mem_cons_self _ _)
        have hxq : ((px : ℕ) : ℚ) = ((x : ℤ) : ℚ) := by
          subst hpx
          have h1 : ((x.toNat : ℤ) : ℚ) = ((x : ℤ) : ℚ) := by
            rw [Int.toNat_of_nonneg hx]
          push_cast at h1
          exact h1
        have hyq : ((py : ℕ) : ℚ) = ((y : ℤ) : ℚ) := by
          subst hpy
          have h1 : ((y.toNat : ℤ) : ℚ) = ((y : ℤ) : ℚ) := by
            rw [Int.toNat_of_nonneg hy0]
          push_cast at h1
          exact h1
        have hpt : (⟨(px : ℚ), (py : ℚ)⟩ : Pt) = ⟨(x : ℚ), (y : ℚ)⟩ := by
          rw [hxq, hyq]
        rw [hpt, hcont] at hnc
        cases hnc
    · split
      · rfl
      · exact ih false s hys'

theorem flatBounds_tlx_nonneg (w h : ℕ) (t : Tri) : 0 ≤ (flatBounds w h t).tlx :=
  le_max_right _ _

theorem flatBounds_tly_nonneg (w h : ℕ) (t : Tri) : 0 ≤ (flatBounds w h t).tly :=
  le_max_right _ _

/-- A pixel covered by no triangle of a `tri_list` call is never
composited during the call. -/
theorem count_tri_list_uncovered (w h : ℕ) (color : Color4) (g0 : ℕ → ℕ → Pix)
    (ts : List Tri) (px py : ℕ)
    (hnc : ∀ t ∈ ts, triangle_contains t ⟨(px : ℚ), (py : ℚ)⟩ = false) :
    (tri_list w h color g0 ts).count px py = 0 := by
  have hstep : ∀ (s : CallState) (t : Tri), t ∈ ts → s.count px py = 0 →
      (flatTri w h color s t).count px py = 0 := by
    intro s t ht hs
    have hcols := foldl_preserve_mem (fun s0 : CallState => s0.count px py = 0)
      (fun s0 x => flatScanCol h color t x
        (intRange (flatBounds w h t).tly (flatBounds w h t).bry) false s0)
      (intRange (flatBounds w h t).tlx (flatBounds w h t).brx) s
      (fun s0 x hxmem hs0 => by
        show (flatScanCol h color t x
          (intRange (flatBounds w h t).tly (flatBounds w h t).bry)
          false s0).count px py = 0
        rw [count_scanCol_not_contained h
          (le_trans (flatBounds_tlx_nonneg w h t) (mem_intRange_le hxmem))
          (hnc t ht) _ _ _
          (fun z hz => le_trans (flatBounds_tly_nonneg w h t) (mem_intRange_le hz))]
        exact hs0) hs
    unfold flatTri
    exact hcols
  have := foldl_preserve_mem (fun s0 : CallState => s0.count px py = 0)
    (flatTri w h color) ts ⟨g0, fun _ _ => false, fun _ _ => 0⟩
    (fun s t ht hs => hstep s t ht hs) rfl
  unfold tri_list
  exact this

/-- Claim C2 amended: within one `tri_list` call every destination pixel
is composited **at most** once; a composited pixel's final value is one
composite of the draw color over its pre-call value (first-hit-wins — and
since the whole call carries a single color, the value is the same
whichever triangle hits first); an uncomposited pixel, in particular any
pixel covered by no triangle of the call, is unchanged.  "Exactly once for
every covered pixel" does not hold: a pixel passing the membership test
can still be skipped when the half-open clipped scan box excludes it (see
`c2_counterexample`). -/
theorem c2_first_hit_amended (w h : ℕ) (color : Color4) (g0 : ℕ → ℕ → Pix)
    (ts : List Tri) (px py : ℕ) :
    (tri_list w h color g0 ts).count px py ≤ 1 ∧
      ((tri_list w h color g0 ts).count px py = 1 →
        (tri_list w h color g0 ts).grid px py = compositePix color (g0 px py)) ∧
      ((tri_list w h color g0 ts).count px py = 0 →
        (tri_list w h color g0 ts).grid px py = g0 px py) ∧
      ((∀ t ∈ ts, triangle_contains t ⟨(px : ℚ), (py : ℚ)⟩ = false) →
        (tri_list w h color g0 ts).count px py = 0) := by
  have hinv := flatInv_tri_list w h color g0 ts px py
  refine ⟨?_, ?_, ?_, fun hnc => count_tri_list_uncovered w h color g0 ts px py hnc⟩
  · rcases hinv with ⟨_, h2, _⟩ | ⟨_, h2, _⟩ <;> omega
  · intro hc
    rcases hinv with ⟨_, h2, _⟩ | ⟨_, _, h3⟩
    · omega
    · exact h3
  · intro hc
    rcases hinv with ⟨_, _, h3⟩ | ⟨_, h2, _⟩
    · exact h3
    · omega

/-- Witness for the amended C2 at a concrete input. -/
theorem c2_first_hit_amended_witness :
    (tri_list 4 4 ⟨1, 1, 1, 1⟩ (fun _ _ => ⟨0, 0, 0, 255⟩)
        [⟨⟨0, 0⟩, ⟨2, 0⟩, ⟨0, 2⟩⟩]).count 1 1 ≤ 1 :=
  (c2_first_hit_amended 4 4 ⟨1, 1, 1, 1⟩ (fun _ _ => ⟨0, 0, 0, 255⟩)
    [⟨⟨0, 0⟩, ⟨2, 0⟩, ⟨0, 2⟩⟩] 1 1).1

/-- The glyph cache of `BufferGlyphs` (src/glyphs.rs:31), modelled as an
association list from `(character, font_size)` keys to cached values.  The
cached value type `D` is abstract: it stands for `CharacterDef` — offset,
advance width and rasterized texture — whose contents are produced by the
external `rusttype` library. -/
def GlyphCache (D : Type) : Type := List ((Char × ℕ) × D)

/-- `character` (src/glyphs.rs:55-98):
`self.characters.entry((ch, font_size)).or_insert_with(|| ...)` — look the
key up, and on a miss run the rasterization closure (abstracted as
`raster`, a pure function of the key: the font is fixed for the cache's
lifetime) and insert the result.  The returned `Bool` records whether the
rasterizer ran during this call. -/
def character (D : Type) (raster : Char × ℕ → D) (cache : GlyphCache D)
    (ch : Char) (font_size : ℕ) : D × GlyphCache D × Bool :=
  match List.lookup (ch, font_size) cache with
  | some d => (d, cache, false)
  | none =>
    (raster (ch, font_size),
      ((ch, font_size), raster (ch, font_size)) :: cache, true)

/-- Claim C9: requesting the same (character, size) pair again performs no
rasterization (the `Bool` is `false`), returns a value identical to the
first call's, and leaves the cache unchanged — so each pair is rasterized
at most once per cache instance, on its first request. -/
theorem c9_glyph_memoized (D : Type) (raster : Char × ℕ → D)
    (cache : GlyphCache D) (ch : Char) (font_size : ℕ) :
    (character D raster (character D raster cache ch font_size).2.1 ch font_size).1 =
        (character D raster cache ch font_size).1 ∧
      (character D raster (character D raster cache ch font_size).2.1 ch
          font_size).2.1 =
        (character D raster cache ch font_size).2.1 ∧
      (character D raster (character D raster cache ch font_size).2.1 ch
          font_size).2.2 =
        false := by
  unfold character
  cases hl : List.lookup (ch, font_size) cache with
  | some d => simp [hl]
  | none => simp [hl, List.lookup]

/-- Witness for C9 at a concrete input. -/
theorem c9_glyph_memoized_witness :
    (character ℕ (fun _ => 7) (character ℕ (fun _ => 7) [] 'a' 12).2.1 'a' 12).1 =
        (character ℕ (fun _ => 7) [] 'a' 12).1 ∧
      (character ℕ (fun _ => 7) (character ℕ (fun _ => 7) [] 'a' 12).2.1 'a' 12).2.1 =
        (character ℕ (fun _ => 7) [] 'a' 12).2.1 ∧
      (character ℕ (fun _ => 7) (character ℕ (fun _ => 7) [] 'a' 12).2.1 'a' 12).2.2 =
        false :=
  c9_glyph_memoized ℕ (fun _ => 7) [] 'a' 12

end GraphicsBuffer
